import Mathlib

/-!
Shallow embedding of the `ring360` Rust crate (`src/lib.rs`).

Finite `f64` values are modelled as exact rationals (`ℚ`): every finite
double is a rational, and the algorithms of the crate are closed over the
rationals, so rounding is abstracted away.  Two pieces of genuinely
discrete machine semantics are kept bit-faithful:

* Rust's `%` on floats is the truncated remainder `a - b * trunc (a / b)`
  (`rustRem` below);
* the cast `as i64` applied to a float saturates at the `i64` bounds and
  maps NaN to `0` (`i64sat` / `F.toI64` below).

Non-finite behaviour (claim C9) is modelled by the type `F`, which extends
the rationals with `+∞`, `-∞` and NaN following IEEE-754 semantics for the
operations the crate uses (negative zero is not modelled; the claims under
study only involve the positive zero divisor).
-/

/-- Truncation toward zero of a rational, as Rust float-to-float `trunc`
(and the `%` operator) behave. -/
def ratTrunc (q : ℚ) : ℤ :=
  if 0 ≤ q then ⌊q⌋ else ⌈q⌉

/-- Rust `%` on `f64`: the truncated (fmod-style) remainder,
`a - b * trunc (a / b)`; the result has the sign of `a`. -/
def rustRem (a b : ℚ) : ℚ :=
  a - b * (ratTrunc (a / b) : ℚ)

/-- Rust saturating cast of an integer into the `i64` range, the final step
of `x as i64` on a float `x` whose value is the integer `n`. -/
def i64sat (n : ℤ) : ℤ :=
  max (-(2 ^ 63)) (min (2 ^ 63 - 1) n)

namespace Ring360

/-- Constant `Ring360::BASE`. -/
def BASE : ℚ := 360

/-- Method `Ring360::half_turn`: `BASE / 2`. -/
def half_turn : ℚ := BASE / 2

/-- Method `Ring360::minus_half_turn`: `0.0 - BASE / 2`. -/
def minus_half_turn : ℚ := 0 - BASE / 2

/-- Constructor `Ring360::from_gis`: if the ±180º input is negative, store
`BASE + lng180`, else store `lng180` unchanged.  The result is the raw
value held by the returned struct. -/
def from_gis (lng180 : ℚ) : ℚ :=
  if lng180 < 0 then BASE + lng180 else lng180

/-- Method `Ring360::degrees`: `self.0 % BASE`, then if the remainder is
negative remap via `BASE - (0.0 - deg_val)`. -/
def degrees (x : ℚ) : ℚ :=
  let deg_val := rustRem x BASE
  if deg_val < 0 then BASE - (0 - deg_val) else deg_val

/-- Method `Ring360::to_gis`: if `degrees() <= half_turn()` return
`degrees()`, else `degrees() - BASE`. -/
def to_gis (x : ℚ) : ℚ :=
  if degrees x ≤ half_turn then degrees x else degrees x - BASE

/-- Method `Ring360::rotations`: `(self.0 / BASE).floor() as i64`.  The
floor is exact on the rational model; the `as i64` cast saturates. -/
def rotations (x : ℚ) : ℤ :=
  i64sat ⌊x / BASE⌋

/-- Method `Ring360::progress`: `self.0 / BASE`. -/
def progress (x : ℚ) : ℚ := x / BASE

/-- Method `Ring360::value`: the raw stored value. -/
def value (x : ℚ) : ℚ := x

/-- Method `Ring360::multiply`: `self.0 * multiple`. -/
def multiply (x multiple : ℚ) : ℚ := x * multiple

/-- Method `Ring360::angle_f64`: `diff = (other % BASE) - self.degrees()`,
then add `BASE` if `diff < minus_half_turn()`, subtract `BASE` if
`diff > half_turn()`. -/
def angle_f64 (x other_value : ℚ) : ℚ :=
  let diff := rustRem other_value BASE - degrees x
  if diff < minus_half_turn then diff + BASE
  else if diff > half_turn then diff - BASE
  else diff

/-- Method `Ring360::angle_f64_abs`: `angle_f64`, plus `BASE` when the
relative value is negative. -/
def angle_f64_abs (x other_value : ℚ) : ℚ :=
  let relative_value := angle_f64 x other_value
  if relative_value < 0 then BASE + relative_value else relative_value

/-- Method `Ring360::angle`: `self.angle_f64(other_value.degrees())`. -/
def angle (x other_value : ℚ) : ℚ :=
  angle_f64 x (degrees other_value)

/-- Method `Ring360::angle_abs`: `self.angle_f64_abs(other_value.degrees())`. -/
def angle_abs (x other_value : ℚ) : ℚ :=
  angle_f64_abs x (degrees other_value)

/-- Method `Ring360::to_radians`: `self.degrees().to_radians()`, i.e.
`degrees * (π / 180)`. -/
noncomputable def to_radians (x : ℚ) : ℝ :=
  (degrees x : ℝ) * (Real.pi / 180)

/-- Method `Ring360::cos`: `self.to_radians().cos()`. -/
noncomputable def cos (x : ℚ) : ℝ :=
  Real.cos (to_radians x)

/-- Method `Ring360::sin`: `self.to_radians().sin()`. -/
noncomputable def sin (x : ℚ) : ℝ :=
  Real.sin (to_radians x)

end Ring360

/-- Model of an `f64` including the non-finite values: a finite rational,
the two infinities, or NaN.  Negative zero is not modelled. -/
inductive F : Type
  | fin (q : ℚ)
  | pinf
  | ninf
  | nan
deriving DecidableEq, Repr

namespace F

/-- IEEE-754 `<` on floats: any comparison with NaN is false. -/
def flt : F → F → Bool
  | fin x, fin y => decide (x < y)
  | fin _, pinf => true
  | fin _, ninf => false
  | pinf, pinf => false
  | pinf, fin _ => false
  | pinf, ninf => false
  | ninf, ninf => false
  | ninf, fin _ => true
  | ninf, pinf => true
  | nan, _ => false
  | _, nan => false

/-- IEEE-754 subtraction on the model (exact in the finite case). -/
def fsub : F → F → F
  | fin x, fin y => fin (x - y)
  | fin _, pinf => ninf
  | fin _, ninf => pinf
  | pinf, fin _ => pinf
  | pinf, ninf => pinf
  | pinf, pinf => nan
  | ninf, fin _ => ninf
  | ninf, pinf => ninf
  | ninf, ninf => nan
  | nan, _ => nan
  | _, nan => nan

/-- IEEE-754 division on the model (exact in the finite case): a nonzero
finite value divided by zero gives a signed infinity, `0 / 0` gives NaN. -/
def fdiv : F → F → F
  | fin x, fin y =>
      if y = 0 then (if x = 0 then nan else if 0 < x then pinf else ninf)
      else fin (x / y)
  | fin _, pinf => fin 0
  | fin _, ninf => fin 0
  | pinf, fin y => if 0 ≤ y then pinf else ninf
  | ninf, fin y => if 0 ≤ y then ninf else pinf
  | pinf, pinf => nan
  | pinf, ninf => nan
  | ninf, pinf => nan
  | ninf, ninf => nan
  | nan, _ => nan
  | _, nan => nan

/-- IEEE-754 `%` (Rust float remainder): NaN when the dividend is infinite
or the divisor is zero; the dividend unchanged when the divisor is
infinite; the truncated remainder in the finite case. -/
def frem : F → F → F
  | fin x, fin y => if y = 0 then nan else fin (rustRem x y)
  | fin x, pinf => fin x
  | fin x, ninf => fin x
  | fin _, nan => nan
  | pinf, _ => nan
  | ninf, _ => nan
  | nan, _ => nan

/-- IEEE-754 `floor`: identity on infinities and NaN. -/
def ffloor : F → F
  | fin q => fin (⌊q⌋ : ℚ)
  | pinf => pinf
  | ninf => ninf
  | nan => nan

/-- Rust cast `as i64` on a float: truncation toward zero, saturated at the
`i64` bounds; `+∞` maps to `i64::MAX`, `-∞` to `i64::MIN`, NaN to `0`. -/
def toI64 : F → ℤ
  | fin q => i64sat (ratTrunc q)
  | pinf => 2 ^ 63 - 1
  | ninf => -(2 ^ 63)
  | nan => 0

/-- `Ring360::divide` on the float model: `self.0 / divisor`. -/
def fdivide (a divisor : F) : F := fdiv a divisor

/-- `Ring360::value` on the float model: the raw stored value. -/
def fvalue (a : F) : F := a

/-- `Ring360::degrees` on the float model: `self.0 % BASE`, then the
negative branch `BASE - (0.0 - deg_val)` when `deg_val < 0.0`. -/
def fdegrees (a : F) : F :=
  let deg_val := frem a (fin Ring360.BASE)
  if flt deg_val (fin 0) then fsub (fin Ring360.BASE) (fsub (fin 0) deg_val)
  else deg_val

/-- `Ring360::rotations` on the float model:
`(self.0 / BASE).floor() as i64`. -/
def frotations (a : F) : ℤ :=
  toI64 (ffloor (fdiv a (fin Ring360.BASE)))

end F

/-! ### Basic facts about truncation and the truncated remainder -/

theorem ratTrunc_of_nonneg {q : ℚ} (h : 0 ≤ q) : ratTrunc q = ⌊q⌋ :=
  if_pos h

theorem ratTrunc_of_neg {q : ℚ} (h : q < 0) : ratTrunc q = ⌈q⌉ :=
  if_neg (not_le.mpr h)

namespace Ring360

/-- Determination of `⌊x / 360⌋` from rational bounds on `x`. -/
theorem floor_div_base_eq {x : ℚ} {n : ℤ} (h1 : (n : ℚ) * 360 ≤ x)
    (h2 : x < ((n : ℚ) + 1) * 360) : ⌊x / 360⌋ = n := by
  rw [Int.floor_eq_iff]
  constructor
  · rw [le_div_iff₀ (by norm_num : (0 : ℚ) < 360)]
    exact h1
  · rw [div_lt_iff₀ (by norm_num : (0 : ℚ) < 360)]
    exact h2

/-- The sign-corrected remainder computed by `degrees` is exactly
`x - 360 * ⌊x / 360⌋`: the two-branch normalization of the source agrees
with the floor-based mathematical reduction. -/
theorem degrees_eq_sub_floor (x : ℚ) : degrees x = x - 360 * ⌊x / 360⌋ := by
  have hx : (360 : ℚ) * (x / 360) = x := by field_simp
  have hfl : (⌊x / 360⌋ : ℚ) ≤ x / 360 := Int.floor_le _
  have hfl2 : x / 360 < ⌊x / 360⌋ + 1 := Int.lt_floor_add_one _
  simp only [degrees, rustRem, BASE]
  rcases le_or_lt 0 (x / 360) with hq | hq
  · rw [ratTrunc_of_nonneg hq, if_neg]
    push_neg
    nlinarith
  · rw [ratTrunc_of_neg hq]
    have hcl : x / 360 ≤ (⌈x / 360⌉ : ℚ) := Int.le_ceil _
    by_cases hd : x - 360 * (⌈x / 360⌉ : ℚ) < 0
    · rw [if_pos hd]
      have hlt : ⌊x / 360⌋ < ⌈x / 360⌉ := by
        have h1 : (⌊x / 360⌋ : ℚ) < (⌈x / 360⌉ : ℚ) := by nlinarith
        exact_mod_cast h1
      have hle : ⌈x / 360⌉ ≤ ⌊x / 360⌋ + 1 := Int.ceil_le_floor_add_one _
      have heq : ⌈x / 360⌉ = ⌊x / 360⌋ + 1 := by omega
      rw [heq]
      push_cast
      ring
    · rw [if_neg hd]
      push_neg at hd
      have h0 : x - 360 * (⌈x / 360⌉ : ℚ) = 0 := by nlinarith
      have hxq : x / 360 = (⌈x / 360⌉ : ℚ) := by
        field_simp
        linarith
      have hfc : ⌊x / 360⌋ = ⌈x / 360⌉ := by
        rw [hxq, Int.floor_intCast, Int.ceil_intCast]
      rw [hfc]

/-- `degrees` is non-negative. -/
theorem degrees_nonneg (x : ℚ) : 0 ≤ degrees x := by
  rw [degrees_eq_sub_floor]
  have hx : (360 : ℚ) * (x / 360) = x := by field_simp
  have hfl : (⌊x / 360⌋ : ℚ) ≤ x / 360 := Int.floor_le _
  linarith

/-- `degrees` is strictly below `360`. -/
theorem degrees_lt (x : ℚ) : degrees x < 360 := by
  rw [degrees_eq_sub_floor]
  have hx : (360 : ℚ) * (x / 360) = x := by field_simp
  have hfl2 : x / 360 < ⌊x / 360⌋ + 1 := Int.lt_floor_add_one _
  linarith

/-- On `[0, 360)` the normalization is the identity. -/
theorem degrees_of_lt {x : ℚ} (h1 : 0 ≤ x) (h2 : x < 360) : degrees x = x := by
  rw [degrees_eq_sub_floor]
  have h0 : ⌊x / 360⌋ = 0 := by
    apply floor_div_base_eq <;> push_cast <;> linarith
  rw [h0]
  norm_num

/-- Evaluation rule for `degrees` at concrete inputs. -/
theorem degrees_eval {x : ℚ} {n : ℤ} (h1 : (n : ℚ) * 360 ≤ x)
    (h2 : x < ((n : ℚ) + 1) * 360) : degrees x = x - 360 * n := by
  rw [degrees_eq_sub_floor, floor_div_base_eq h1 h2]

/-- On a non-negative dividend, Rust `% 360` is the floor-based remainder. -/
theorem rustRem_360_eq_of_nonneg {x : ℚ} (h : 0 ≤ x) :
    rustRem x 360 = x - 360 * ⌊x / 360⌋ := by
  have hq : 0 ≤ x / 360 := by positivity
  simp only [rustRem]
  rw [ratTrunc_of_nonneg hq]

/-- Range of Rust `% 360` on a non-negative dividend. -/
theorem rustRem_360_nonneg {x : ℚ} (h : 0 ≤ x) :
    0 ≤ rustRem x 360 ∧ rustRem x 360 < 360 := by
  rw [rustRem_360_eq_of_nonneg h]
  have hx : (360 : ℚ) * (x / 360) = x := by field_simp
  have hfl : (⌊x / 360⌋ : ℚ) ≤ x / 360 := Int.floor_le _
  have hfl2 : x / 360 < ⌊x / 360⌋ + 1 := Int.lt_floor_add_one _
  constructor <;> linarith

/-- Range of Rust `% 360` on a negative dividend: the result keeps the
sign of the dividend. -/
theorem rustRem_360_neg {x : ℚ} (h : x < 0) :
    -360 < rustRem x 360 ∧ rustRem x 360 ≤ 0 := by
  have hq : x / 360 < 0 := div_neg_of_neg_of_pos h (by norm_num)
  simp only [rustRem]
  rw [ratTrunc_of_neg hq]
  have hx : (360 : ℚ) * (x / 360) = x := by field_simp
  have hcl : x / 360 ≤ (⌈x / 360⌉ : ℚ) := Int.le_ceil _
  have hcl2 : (⌈x / 360⌉ : ℚ) < x / 360 + 1 := Int.ceil_lt_add_one _
  constructor <;> linarith

/-- Rust `% 360` always lies strictly between `-360` and `360`. -/
theorem rustRem_360_bounds (x : ℚ) : -360 < rustRem x 360 ∧ rustRem x 360 < 360 := by
  rcases le_or_lt 0 x with h | h
  · have hb := rustRem_360_nonneg h
    exact ⟨by linarith [hb.1], hb.2⟩
  · have hb := rustRem_360_neg h
    exact ⟨hb.1, by linarith [hb.2]⟩

/-- Rust `% 360` is the identity on `[0, 360)`. -/
theorem rustRem_360_self {x : ℚ} (h1 : 0 ≤ x) (h2 : x < 360) : rustRem x 360 = x := by
  rw [rustRem_360_eq_of_nonneg h1]
  have h0 : ⌊x / 360⌋ = 0 := by
    apply floor_div_base_eq <;> push_cast <;> linarith
  rw [h0]
  norm_num

/-- Rust `% 360` is the identity on `(-360, 0)` as well. -/
theorem rustRem_360_self_of_neg {x : ℚ} (h1 : -360 < x) (h2 : x < 0) :
    rustRem x 360 = x := by
  have hq : x / 360 < 0 := div_neg_of_neg_of_pos h2 (by norm_num)
  simp only [rustRem]
  rw [ratTrunc_of_neg hq]
  have h0 : ⌈x / 360⌉ = 0 := by
    rw [Int.ceil_eq_zero_iff, Set.mem_Ioc]
    constructor
    · rw [lt_div_iff₀ (by norm_num : (0 : ℚ) < 360)]
      linarith
    · exact le_of_lt hq
  rw [h0]
  norm_num

/-- Saturation is the identity on the `i64` range. -/
theorem i64sat_eq {n : ℤ} (h1 : -(2 ^ 63) ≤ n) (h2 : n ≤ 2 ^ 63 - 1) :
    i64sat n = n := by
  simp only [i64sat]
  rw [min_eq_right h2, max_eq_right h1]

/-- Evaluation rule for `rotations` at concrete inputs inside the `i64`
range. -/
theorem rotations_eval {x : ℚ} {n : ℤ} (hlo : -(2 ^ 63) ≤ n) (hhi : n ≤ 2 ^ 63 - 1)
    (h1 : (n : ℚ) * 360 ≤ x) (h2 : x < ((n : ℚ) + 1) * 360) : rotations x = n := by
  simp only [rotations, BASE]
  rw [floor_div_base_eq h1 h2, i64sat_eq hlo hhi]

end Ring360

/-! ### Facts about the angle computations -/

namespace Ring360

/-- Rewriting rule for `angle_f64` once the remainder of the second
argument and the normalized degrees of the first are known. -/
theorem angle_f64_rw {a b r d : ℚ} (hr : rustRem b 360 = r) (hd : degrees a = d) :
    angle_f64 a b =
      if r - d < -180 then r - d + 360 else if r - d > 180 then r - d - 360 else r - d := by
  have h1 : minus_half_turn = -180 := by norm_num [minus_half_turn, BASE]
  have h2 : half_turn = 180 := by norm_num [half_turn, BASE]
  simp only [angle_f64, BASE, h1, h2, hr, hd]

/-- Rewriting rule for `angle_f64_abs` in terms of `angle_f64`. -/
theorem angle_f64_abs_rw (a b : ℚ) :
    angle_f64_abs a b =
      if angle_f64 a b < 0 then 360 + angle_f64 a b else angle_f64 a b := by
  simp only [angle_f64_abs, BASE]

/-- Unrestricted range of `angle_f64`: the wrap corrections only guarantee
`(-360, 180]` because a negative raw second argument keeps a negative
remainder. -/
theorem angle_f64_mem (a b : ℚ) : -360 < angle_f64 a b ∧ angle_f64 a b ≤ 180 := by
  have hr := rustRem_360_bounds b
  have h0 := degrees_nonneg a
  have h1 := degrees_lt a
  simp only [angle_f64, minus_half_turn, half_turn, BASE]
  split_ifs with hc1 hc2
  · constructor <;> linarith [hr.1, hr.2]
  · constructor <;> linarith [hr.1, hr.2]
  · constructor <;> linarith [hr.1, hr.2]

/-- With a non-negative second argument the remainder is non-negative and
the result of `angle_f64` lies in the closed interval `[-180, 180]`. -/
theorem angle_f64_mem_of_nonneg {a : ℚ} (b : ℚ) (hb : 0 ≤ b) :
    -180 ≤ angle_f64 a b ∧ angle_f64 a b ≤ 180 := by
  have hr := rustRem_360_nonneg hb
  have h0 := degrees_nonneg a
  have h1 := degrees_lt a
  simp only [angle_f64, minus_half_turn, half_turn, BASE]
  split_ifs with hc1 hc2
  · constructor <;> linarith [hr.1, hr.2]
  · constructor <;> linarith [hr.1, hr.2]
  · constructor <;> linarith [hr.1, hr.2]

/-- The value-to-value form `angle` always lands in `[-180, 180]`. -/
theorem angle_mem (a b : ℚ) : -180 ≤ angle a b ∧ angle a b ≤ 180 := by
  simp only [angle]
  exact angle_f64_mem_of_nonneg (degrees b) (degrees_nonneg b)

/-- The value-to-value form `angle` is antisymmetric, including at the
exact half-turn boundary, where one direction reports `180` and the other
`-180`. -/
theorem angle_antisymm_lemma (a b : ℚ) : angle a b = -(angle b a) := by
  have hsb : rustRem (degrees b) 360 = degrees b :=
    rustRem_360_self (degrees_nonneg b) (degrees_lt b)
  have hsa : rustRem (degrees a) 360 = degrees a :=
    rustRem_360_self (degrees_nonneg a) (degrees_lt a)
  have h0a := degrees_nonneg a
  have h1a := degrees_lt a
  have h0b := degrees_nonneg b
  have h1b := degrees_lt b
  simp only [angle, angle_f64, minus_half_turn, half_turn, BASE, hsa, hsb]
  split_ifs <;> linarith

end Ring360

/-! ### The claims -/

/-- C1, counterexample: the claimed result domain `(-180, 180]` with a
`+180` tie-break is violated by the code.  At an exact half-turn
separation measured downward the result is `-180` (for both `angle` and
`angle_f64`), and `angle_f64` applied to a negative raw second argument
can even return `-358`. -/
theorem claim_C1_counterexample :
    Ring360.angle 180 0 = -180 ∧ Ring360.angle_f64 180 0 = -180 ∧
      Ring360.angle_f64 359 (-359) = -358 := by
  have e1 : Ring360.angle_f64 180 0 = -180 := by
    rw [Ring360.angle_f64_rw (Ring360.rustRem_360_self (by norm_num) (by norm_num))
      (Ring360.degrees_of_lt (by norm_num) (by norm_num))]
    norm_num
  have e2 : Ring360.angle_f64 359 (-359) = -358 := by
    rw [Ring360.angle_f64_rw (Ring360.rustRem_360_self_of_neg (by norm_num) (by norm_num))
      (Ring360.degrees_of_lt (by norm_num) (by norm_num))]
    norm_num
  have hd0 : Ring360.degrees (0 : ℚ) = 0 := Ring360.degrees_of_lt (by norm_num) (by norm_num)
  refine ⟨?_, e1, e2⟩
  simp only [Ring360.angle, hd0]
  exact e1

/-- C1, amended: the value-to-value form `angle` always returns a value in
the closed interval `[-180, 180]`, and so does `angle_f64` whenever its
raw second argument is non-negative; `-180` is attainable at exact
half-turn separations.  For an arbitrary (possibly negative) finite second
argument, `angle_f64` returns a value in `(-360, 180]`. -/
theorem claim_C1 :
    (∀ a b : ℚ, -180 ≤ Ring360.angle a b ∧ Ring360.angle a b ≤ 180) ∧
    (∀ a b : ℚ, 0 ≤ b → -180 ≤ Ring360.angle_f64 a b ∧ Ring360.angle_f64 a b ≤ 180) ∧
    (∀ a b : ℚ, -360 < Ring360.angle_f64 a b ∧ Ring360.angle_f64 a b ≤ 180) :=
  ⟨Ring360.angle_mem, fun _ b hb => Ring360.angle_f64_mem_of_nonneg b hb,
    Ring360.angle_f64_mem⟩

/-- C1, witness: the amended bound, instantiated at `a = 3`, `b = 725`. -/
theorem claim_C1_witness :
    -180 ≤ Ring360.angle_f64 3 725 ∧ Ring360.angle_f64 3 725 ≤ 180 :=
  claim_C1.2.1 3 725 (by norm_num)

/-- C2: for every finite raw value `x`, `Ring360(x).degrees()` lies in the
closed-open interval `[0, 360)`. -/
theorem claim_C2 : ∀ x : ℚ, 0 ≤ Ring360.degrees x ∧ Ring360.degrees x < 360 :=
  fun x => ⟨Ring360.degrees_nonneg x, Ring360.degrees_lt x⟩

/-- C3, counterexample: `rotations` is not `⌊x / 360⌋` for every finite
raw value, because the `as i64` cast saturates.  At the finite double
`360 * 2^64` the floor is `2^64`, outside the `i64` range, and the method
returns `i64::MAX = 2^63 - 1`; the claimed decomposition
`x = degrees x + rotations x * 360` fails there as well. -/
theorem claim_C3_counterexample :
    Ring360.rotations (360 * 2 ^ 64) = 2 ^ 63 - 1 ∧
    ⌊(360 * 2 ^ 64 : ℚ) / 360⌋ = 2 ^ 64 ∧
    Ring360.rotations (360 * 2 ^ 64) ≠ ⌊(360 * 2 ^ 64 : ℚ) / 360⌋ ∧
    (360 * 2 ^ 64 : ℚ) ≠
      Ring360.degrees (360 * 2 ^ 64) + (Ring360.rotations (360 * 2 ^ 64) : ℚ) * 360 := by
  have hfl : ⌊(360 * 2 ^ 64 : ℚ) / 360⌋ = 2 ^ 64 :=
    Ring360.floor_div_base_eq (by push_cast; norm_num) (by push_cast; norm_num)
  have hrot : Ring360.rotations (360 * 2 ^ 64) = 2 ^ 63 - 1 := by
    simp only [Ring360.rotations, Ring360.BASE]
    rw [hfl]
    simp only [i64sat]
    rw [min_eq_left (by norm_num : (2 ^ 63 - 1 : ℤ) ≤ 2 ^ 64),
      max_eq_right (by norm_num : (-(2 ^ 63) : ℤ) ≤ 2 ^ 63 - 1)]
  have hdeg : Ring360.degrees (360 * 2 ^ 64) = 0 := by
    rw [Ring360.degrees_eq_sub_floor, hfl]
    push_cast
    norm_num
  refine ⟨hrot, hfl, ?_, ?_⟩
  · rw [hrot, hfl]
    norm_num
  · rw [hrot, hdeg]
    push_cast
    norm_num

/-- C3, amended: whenever `⌊x / 360⌋` lies inside the `i64` range,
`rotations x` equals `⌊x / 360⌋` and the exact decomposition
`x = degrees x + rotations x * 360` holds; in particular
`rotations (-82.467352) = -1` and `rotations (432.202828) = 1`. -/
theorem claim_C3 :
    (∀ x : ℚ, -(2 ^ 63) ≤ ⌊x / 360⌋ → ⌊x / 360⌋ ≤ 2 ^ 63 - 1 →
      Ring360.rotations x = ⌊x / 360⌋ ∧
        x = Ring360.degrees x + (Ring360.rotations x : ℚ) * 360) ∧
    Ring360.rotations (-82.467352) = -1 ∧ Ring360.rotations 432.202828 = 1 := by
  constructor
  · intro x hlo hhi
    have hrot : Ring360.rotations x = ⌊x / 360⌋ := by
      simp only [Ring360.rotations, Ring360.BASE]
      exact Ring360.i64sat_eq hlo hhi
    refine ⟨hrot, ?_⟩
    rw [hrot, Ring360.degrees_eq_sub_floor]
    ring
  · constructor
    · exact Ring360.rotations_eval (by norm_num) (by norm_num) (by norm_num) (by norm_num)
    · exact Ring360.rotations_eval (by norm_num) (by norm_num) (by norm_num) (by norm_num)

/-- C3, witness: the amended statement instantiated at `x = -82.467352`,
whose floor `-1` is inside the `i64` range. -/
theorem claim_C3_witness :
    Ring360.rotations (-82.467352) = ⌊(-82.467352 : ℚ) / 360⌋ ∧
      (-82.467352 : ℚ) =
        Ring360.degrees (-82.467352) + (Ring360.rotations (-82.467352) : ℚ) * 360 :=
  claim_C3.1 (-82.467352) (by norm_num [Int.floor_eq_iff]) (by norm_num [Int.floor_eq_iff])

/-- C4: `to_gis` inverts `from_gis` on the interval `(-180, 180]`. -/
theorem claim_C4 (x : ℚ) (h1 : -180 < x) (h2 : x ≤ 180) :
    Ring360.to_gis (Ring360.from_gis x) = x := by
  have hht : Ring360.half_turn = 180 := by norm_num [Ring360.half_turn, Ring360.BASE]
  rcases lt_or_le x 0 with hx | hx
  · have hfg : Ring360.from_gis x = 360 + x := by
      simp only [Ring360.from_gis, Ring360.BASE, if_pos hx]
    have hdeg : Ring360.degrees (360 + x) = 360 + x :=
      Ring360.degrees_of_lt (by linarith) (by linarith)
    simp only [Ring360.to_gis, hfg, hdeg, hht, Ring360.BASE]
    rw [if_neg (by linarith)]
    ring
  · have hfg : Ring360.from_gis x = x := by
      simp only [Ring360.from_gis, Ring360.BASE, if_neg (not_lt.mpr hx)]
    have hdeg : Ring360.degrees x = x := Ring360.degrees_of_lt hx (by linarith)
    simp only [Ring360.to_gis, hfg, hdeg, hht]
    rw [if_pos h2]

/-- C4, witness: the round trip at `x = -75`, together with the concrete
intermediate value `from_gis(-75).degrees() = 285`. -/
theorem claim_C4_witness :
    Ring360.to_gis (Ring360.from_gis (-75)) = -75 ∧
      Ring360.degrees (Ring360.from_gis (-75)) = 285 := by
  refine ⟨claim_C4 (-75) (by norm_num) (by norm_num), ?_⟩
  have hfg : Ring360.from_gis (-75 : ℚ) = 285 := by
    simp only [Ring360.from_gis, Ring360.BASE]
    rw [if_pos (by norm_num : (-75 : ℚ) < 0)]
    norm_num
  rw [hfg]
  exact Ring360.degrees_of_lt (by norm_num) (by norm_num)

/-- C5: both constructors normalize `-90` to `270` degrees, but the plain
constructor reports rotation `-1` while `from_gis` reports rotation `0`. -/
theorem claim_C5 :
    Ring360.degrees (-90) = 270 ∧ Ring360.degrees (Ring360.from_gis (-90)) = 270 ∧
      Ring360.rotations (-90) = -1 ∧ Ring360.rotations (Ring360.from_gis (-90)) = 0 := by
  have hfg : Ring360.from_gis (-90 : ℚ) = 270 := by
    simp only [Ring360.from_gis, Ring360.BASE]
    rw [if_pos (by norm_num : (-90 : ℚ) < 0)]
    norm_num
  refine ⟨?_, ?_, ?_, ?_⟩
  · have hd : Ring360.degrees (-90 : ℚ) = (-90 : ℚ) - 360 * ((-1 : ℤ) : ℚ) :=
      Ring360.degrees_eval (by norm_num) (by norm_num)
    rw [hd]
    norm_num
  · rw [hfg]
    exact Ring360.degrees_of_lt (by norm_num) (by norm_num)
  · exact Ring360.rotations_eval (by norm_num) (by norm_num) (by norm_num) (by norm_num)
  · rw [hfg]
    exact Ring360.rotations_eval (by norm_num) (by norm_num) (by norm_num) (by norm_num)

/-- C6: the absolute clockwise angle (`angle_f64_abs`, and the
value-to-value form `angle_abs`) always lies in `[0, 360)`; it equals the
signed angle plus `360` when the signed angle is negative and the signed
angle unchanged otherwise; concretely the absolute angle from `271.5` to
`24.5` is `113` and from `24.5` to `271.5` is `247`. -/
theorem claim_C6 :
    (∀ a b : ℚ, 0 ≤ Ring360.angle_f64_abs a b ∧ Ring360.angle_f64_abs a b < 360 ∧
      (Ring360.angle_f64 a b < 0 →
        Ring360.angle_f64_abs a b = Ring360.angle_f64 a b + 360) ∧
      (0 ≤ Ring360.angle_f64 a b →
        Ring360.angle_f64_abs a b = Ring360.angle_f64 a b)) ∧
    (∀ a b : ℚ, Ring360.angle_abs a b = Ring360.angle_f64_abs a (Ring360.degrees b) ∧
      0 ≤ Ring360.angle_abs a b ∧ Ring360.angle_abs a b < 360) ∧
    Ring360.angle_f64_abs 271.5 24.5 = 113 ∧ Ring360.angle_f64_abs 24.5 271.5 = 247 := by
  have main : ∀ a b : ℚ, 0 ≤ Ring360.angle_f64_abs a b ∧ Ring360.angle_f64_abs a b < 360 ∧
      (Ring360.angle_f64 a b < 0 →
        Ring360.angle_f64_abs a b = Ring360.angle_f64 a b + 360) ∧
      (0 ≤ Ring360.angle_f64 a b →
        Ring360.angle_f64_abs a b = Ring360.angle_f64 a b) := by
    intro a b
    have hm := Ring360.angle_f64_mem a b
    rw [Ring360.angle_f64_abs_rw]
    split_ifs with hc
    · exact ⟨by linarith [hm.1], by linarith, fun _ => by ring, fun h => by linarith⟩
    · push_neg at hc
      exact ⟨hc, by linarith [hm.2], fun h => by linarith, fun _ => rfl⟩
  have e1 : Ring360.angle_f64 271.5 24.5 = 113 := by
    rw [Ring360.angle_f64_rw (Ring360.rustRem_360_self (by norm_num) (by norm_num))
      (Ring360.degrees_of_lt (by norm_num) (by norm_num))]
    norm_num
  have e2 : Ring360.angle_f64 24.5 271.5 = -113 := by
    rw [Ring360.angle_f64_rw (Ring360.rustRem_360_self (by norm_num) (by norm_num))
      (Ring360.degrees_of_lt (by norm_num) (by norm_num))]
    norm_num
  refine ⟨main, fun a b =>
    ⟨rfl, (main a (Ring360.degrees b)).1, (main a (Ring360.degrees b)).2.1⟩, ?_, ?_⟩
  · rw [Ring360.angle_f64_abs_rw, e1]
    norm_num
  · rw [Ring360.angle_f64_abs_rw, e2]
    norm_num

/-- C6, witness: the conditional clauses instantiated at `a = 24.5`,
`b = 271.5`, where the signed angle `-113` is negative. -/
theorem claim_C6_witness :
    Ring360.angle_f64_abs 24.5 271.5 = Ring360.angle_f64 24.5 271.5 + 360 :=
  (claim_C6.1 24.5 271.5).2.2.1 (by
    rw [Ring360.angle_f64_rw (Ring360.rustRem_360_self (by norm_num) (by norm_num))
      (Ring360.degrees_of_lt (by norm_num) (by norm_num))]
    norm_num)

/-- C7: the value-to-value signed shortest angle is antisymmetric,
`a.angle(b) = -(b.angle(a))`; this holds for every pair of finite values,
including exact half-turn separations (where one direction reports `180`
and the other `-180`). -/
theorem claim_C7 : ∀ a b : ℚ, Ring360.angle a b = -(Ring360.angle b a) :=
  Ring360.angle_antisymm_lemma

/-- C8: `Ring360(x).cos()` equals the cosine of the raw input converted to
radians, `cos (x * π / 180)`: normalization drops an integer multiple of
`2π` in radians, which the cosine does not see. -/
theorem claim_C8 : ∀ x : ℚ, Ring360.cos x = Real.cos ((x : ℝ) * (Real.pi / 180)) := by
  intro x
  simp only [Ring360.cos, Ring360.to_radians]
  have h : ((Ring360.degrees x : ℚ) : ℝ) * (Real.pi / 180) =
      (x : ℝ) * (Real.pi / 180) - (⌊x / 360⌋ : ℤ) * (2 * Real.pi) := by
    rw [Ring360.degrees_eq_sub_floor]
    push_cast
    ring
  rw [h, Real.cos_sub_int_mul_two_pi]

/-- C9, counterexample: after dividing the finite value `1` by zero the
raw value is `+∞`, and `rotations()` on that result returns the saturated
ordinary integer `i64::MAX = 9223372036854775807` — an `i64` can never be
`NaN` or infinity, contradicting the claim that `degrees()` *or*
`rotations()` themselves yield NaN or infinity. -/
theorem claim_C9_counterexample :
    F.frotations (F.fdivide (F.fin 1) (F.fin 0)) = 9223372036854775807 := by
  have hdv : F.fdivide (F.fin 1) (F.fin 0) = F.pinf := by
    norm_num [F.fdivide, F.fdiv]
  rw [hdv]
  norm_num [F.frotations, F.ffloor, F.fdiv, F.toI64, Ring360.BASE]

/-- C9, amended: division by the zero scalar never traps: for every finite
`x` the raw value of `divide(x, 0.0)` is the IEEE quotient (signed
infinity, or NaN when `x = 0`); `degrees()` of that result is NaN; and
`rotations()` returns a saturated ordinary integer (`i64::MAX` for `+∞`,
`i64::MIN` for `-∞`, `0` for NaN) rather than any error. -/
theorem claim_C9 : ∀ x : ℚ,
    F.fvalue (F.fdivide (F.fin x) (F.fin 0)) =
      (if x = 0 then F.nan else if 0 < x then F.pinf else F.ninf) ∧
    F.fdegrees (F.fdivide (F.fin x) (F.fin 0)) = F.nan ∧
    F.frotations (F.fdivide (F.fin x) (F.fin 0)) =
      (if x = 0 then 0 else if 0 < x then 2 ^ 63 - 1 else -(2 ^ 63)) := by
  intro x
  rcases lt_trichotomy x 0 with hneg | hzero | hpos
  · have h0 : x ≠ 0 := ne_of_lt hneg
    have hnp : ¬ 0 < x := not_lt.mpr hneg.le
    have hdv : F.fdivide (F.fin x) (F.fin 0) = F.ninf := by
      norm_num [F.fdivide, F.fdiv, h0, hnp]
    refine ⟨?_, ?_, ?_⟩
    · rw [hdv]
      norm_num [F.fvalue, h0, hnp]
    · rw [hdv]
      norm_num [F.fdegrees, F.frem, F.flt]
    · rw [hdv]
      norm_num [F.frotations, F.ffloor, F.fdiv, F.toI64, Ring360.BASE, h0, hnp]
  · subst hzero
    have hdv : F.fdivide (F.fin 0) (F.fin 0) = F.nan := by
      norm_num [F.fdivide, F.fdiv]
    refine ⟨?_, ?_, ?_⟩
    · rw [hdv]
      norm_num [F.fvalue]
    · rw [hdv]
      norm_num [F.fdegrees, F.frem, F.flt]
    · rw [hdv]
      norm_num [F.frotations, F.ffloor, F.fdiv, F.toI64, Ring360.BASE]
  · have h0 : x ≠ 0 := ne_of_gt hpos
    have hdv : F.fdivide (F.fin x) (F.fin 0) = F.pinf := by
      norm_num [F.fdivide, F.fdiv, h0, hpos]
    refine ⟨?_, ?_, ?_⟩
    · rw [hdv]
      norm_num [F.fvalue, h0, hpos]
    · rw [hdv]
      norm_num [F.fdegrees, F.frem, F.flt]
    · rw [hdv]
      norm_num [F.frotations, F.ffloor, F.fdiv, F.toI64, Ring360.BASE, h0, hpos]

/-- C10: the value-to-value form `angle` always returns a result in the
closed interval `[-180, 180]`; both operands being normalized first, their
raw difference lies strictly inside `(-360, 360)`; and the lower bound
`-180` itself is reached at an exact half-turn separation. -/
theorem claim_C10 :
    (∀ a b : ℚ, -180 ≤ Ring360.angle a b ∧ Ring360.angle a b ≤ 180) ∧
    (∀ a b : ℚ, -360 < Ring360.degrees b - Ring360.degrees a ∧
      Ring360.degrees b - Ring360.degrees a < 360) ∧
    Ring360.angle 180 0 = -180 := by
  refine ⟨Ring360.angle_mem, fun a b => ⟨?_, ?_⟩, ?_⟩
  · linarith [Ring360.degrees_nonneg b, Ring360.degrees_lt a]
  · linarith [Ring360.degrees_lt b, Ring360.degrees_nonneg a]
  · have hd0 : Ring360.degrees (0 : ℚ) = 0 :=
      Ring360.degrees_of_lt (by norm_num) (by norm_num)
    simp only [Ring360.angle, hd0]
    rw [Ring360.angle_f64_rw (Ring360.rustRem_360_self (by norm_num) (by norm_num))
      (Ring360.degrees_of_lt (by norm_num) (by norm_num))]
    norm_num
